import Mathlib

/-!
Verification of the placeholder-consistency engine, rename propagation,
cursor-aware insertion algorithm and editing-session state machine of
src/web/pages/Character/CharacterSchema.tsx.

Texts are modelled as lists of characters (`Str`).  JavaScript string
operations used by the source (slice with negative indices, match with a
global regex, split/join, startsWith/endsWith) are modelled explicitly.
-/

namespace CharacterSchema

/-- Texts (JavaScript strings) are modelled as lists of characters. -/
abbrev Str := List Char

/-- A character allowed inside a placeholder name by the grammar: anything
except an opening or closing brace. -/
def nonBrace (c : Char) : Bool := !(c == '{' || c == '}')

/-- The literal placeholder token for a name, i.e. the text
open-brace open-brace name close-brace close-brace.  This is the shape of
the template literal built by onFieldNameChange. -/
def tok (n : Str) : Str := '{' :: '{' :: n ++ ['}', '}']

/-- JavaScript index normalisation for String.prototype.slice: a negative
index counts from the end of the string, and the result is clamped to
the interval from 0 to the length. -/
def jsIndex (len : Nat) (i : Int) : Nat :=
  if i < 0 then ((len : Int) + i).toNat else min i.toNat len

/-- Model of JavaScript s.slice(a, b): the characters from the normalised
start index (inclusive) to the normalised end index (exclusive). -/
def jsSlice (l : Str) (a b : Int) : Str :=
  (l.take (jsIndex l.length b)).drop (jsIndex l.length a)

/-- Modelled from the spec: JSON_NAME_RE (defined in /common/util, which is
not under src/) is the placeholder grammar: an opening brace pair, a
nonempty run of characters that are not braces, and a closing brace pair.
`headTok` tests the grammar at the start of a text; on a match it returns
the inner name and the remainder of the text after the full match.  The
run of name characters is maximal, which is exactly the regex semantics
here because a name character can never be a closing brace. -/
def headTok : Str → Option (Str × Str)
  | '{' :: '{' :: rest =>
    let name := rest.takeWhile nonBrace
    let rest2 := rest.dropWhile nonBrace
    if name ≠ [] ∧ rest2.take 2 = ['}', '}'] then some (name, rest2.drop 2) else none
  | _ => none

/-- Fuel-indexed scanner for text.match(JSON_NAME_RE()) with the global
flag: at each position try the grammar; on a match emit the full match and
continue after it, otherwise advance one character.  The fuel bounds the
number of scan steps; `matchRE` supplies fuel equal to the text length,
which always suffices. -/
def matchAux : Nat → Str → List Str
  | 0, _ => []
  | fuel + 1, t =>
    match t with
    | [] => []
    | c :: rest =>
      match headTok (c :: rest) with
      | some (name, tail) => ('{' :: '{' :: name ++ ['}', '}']) :: matchAux fuel tail
      | none => matchAux fuel rest

/-- The list of full matches of the placeholder grammar in a text, in order
of occurrence: the model of text.match(JSON_NAME_RE()), where a null
result is modelled as the empty list. -/
def matchRE (t : Str) : List Str := matchAux t.length t

/-- Declarative reading of the grammar: the inner name of the placeholder
token starting at position p of t, when one starts there. -/
def tokenStart (t : Str) (p : Nat) : Option Str :=
  (headTok (t.drop p)).map (fun x => x.1)

/-- The inner names of all placeholder tokens occurring in t, listed in
order of their starting position.  This is the declarative specification
the scanner is checked against. -/
def specNames (t : Str) : List Str :=
  (List.range t.length).filterMap (tokenStart t)

/-- The validation loop of the createEffect block: for each full match,
take its inner name via slice(2, -2) and collect it when it is not among
the valid names. -/
def badLoop (vars : List Str) (names : List Str) : List Str :=
  match vars with
  | [] => []
  | v :: rest =>
    let name := jsSlice v 2 (-2)
    if name ∈ names then badLoop rest names else name :: badLoop rest names

/-- Model of JavaScript array.join(comma-space) on a list of strings. -/
def joinComma : List Str → Str
  | [] => []
  | [s] => s
  | s :: rest => s ++ [',', ' '] ++ joinComma rest

/-- One buffer's half of the validation createEffect: match the text
against the grammar; when the match result is null (no matches) the
setter is not called, so the previous error text survives; otherwise the
error text becomes the joined list of unresolved names, or empty when all
names resolve. -/
def validateErr (text : Str) (names : List Str) (prev : Str) : Str :=
  let vars := matchRE text
  if vars = [] then prev
  else
    let bad := badLoop vars names
    if bad = [] then [] else joinComma bad

/-- Fuel-indexed replace-all: the model of t.split(sep).join(rep) for a
nonempty separator, which replaces every leftmost non-overlapping
occurrence of sep in t by rep.  `replaceAll` supplies fuel equal to the
text length, which always suffices for nonempty sep. -/
def replaceAllAux (sep rep : Str) : Nat → Str → Str
  | 0, t => t
  | _ + 1, [] => []
  | fuel + 1, c :: rest =>
    if sep.isPrefixOf (c :: rest) then
      rep ++ replaceAllAux sep rep fuel ((c :: rest).drop sep.length)
    else
      c :: replaceAllAux sep rep fuel rest

/-- Model of t.split(sep).join(rep) for nonempty sep. -/
def replaceAll (t sep rep : Str) : Str := replaceAllAux sep rep t.length t

/-- The before-caret slice computed by onAutoComplete:
prev.slice(0, selectionStart minus one on the brace-typed path, minus
nothing on the hotkey path).  JavaScript slice semantics apply, so a
caret of 0 on the brace-typed path yields the index -1, which counts
from the end of the string. -/
def beforeSlice (text : Str) (caret : Nat) (hotkey : Bool) : Str :=
  jsSlice text 0 ((caret : Int) - (if hotkey then 0 else 1))

/-- The pure core of onAutoComplete: given the buffer text, the caret
offset (selectionStart), the hotkey flag and the selected label, return
the new buffer text and the new caret position.  The left boundary is
normalised to end in an opening brace pair, the right boundary to start
with a closing brace; the label is spliced between them and the caret is
placed right after the label.  The source's third branch tests that
before does not end with a single opening brace, which is always true
there, so it is modelled as a plain else. -/
def onAutoCompletePure (text : Str) (caret : Nat) (hotkey : Bool) (label : Str) :
    Str × Nat :=
  let before0 := beforeSlice text caret hotkey
  let after0 := text.drop caret
  let before :=
    if (['{', '{'] : Str).isSuffixOf before0 then before0
    else if (['{'] : Str).isSuffixOf before0 then before0 ++ ['{']
    else before0 ++ ['{', '{']
  let after := if (['}'] : Str).isPrefixOf after0 then after0 else ['}', '}'] ++ after0
  (before ++ label ++ after, before.length + label.length)

/-- A JSON value, the result of JSON.parse on the imported file content. -/
inductive Json where
  | jnull
  | jbool (b : Bool)
  | jnum (n : Int)
  | jstr (s : Str)
  | jarr (elems : List Json)
  | jobj (fields : List (Str × Json))

/-- A schema field.  Modelled from the spec: the JsonField type lives in
/common/prompt, which is not under src/; the spec gives a field a name and
a type (further metadata is irrelevant to every claim). -/
structure JsonField where
  name : Str
  type : Str
  deriving DecidableEq

/-- The persisted unit: schema fields plus the response and history
templates (the ResponseSchema type of /common/types/library). -/
structure RespSchema where
  schema : List JsonField
  response : Str
  history : Str
  deriving DecidableEq

/-- Look up a key in a parsed JSON object. -/
def jsonLookup (fields : List (Str × Json)) (key : Str) : Except Str Json :=
  match fields.find? (fun kv => kv.1 == key) with
  | some kv => .ok kv.2
  | none => .error ("missing key ".data ++ key)

/-- Expect a JSON string. -/
def asStr : Json → Except Str Str
  | .jstr s => .ok s
  | _ => .error "expected string".data

/-- Expect a JSON array. -/
def asArr : Json → Except Str (List Json)
  | .jarr xs => .ok xs
  | _ => .error "expected array".data

/-- Modelled from the spec: assertValid lives in /common/valid, which is
not under src/.  Per-field shape check of the import: each schema entry
must be an object whose name and type are strings. -/
def checkField (j : Json) : Except Str JsonField :=
  match j with
  | .jobj fields => do
    let n ← jsonLookup fields "name".data >>= asStr
    let ty ← jsonLookup fields "type".data >>= asStr
    .ok { name := n, type := ty }
  | _ => .error "expected object".data

/-- Modelled from the spec: the top-level import shape check of
ImportModal.onUpdate: the parsed value must be an object with string
response, string history and an array schema whose entries pass
`checkField`. -/
def checkShape (j : Json) : Except Str RespSchema :=
  match j with
  | .jobj fields => do
    let r ← jsonLookup fields "response".data >>= asStr
    let h ← jsonLookup fields "history".data >>= asStr
    let sch ← jsonLookup fields "schema".data >>= asArr
    let fs ← sch.mapM checkField
    .ok { schema := fs, response := r, history := h }
  | _ => .error "expected object".data

/-- The whole try-block of ImportModal.onUpdate after reading the file:
JSON.parse (whose outcome is the given Except value, JSON.parse being a
JavaScript builtin) followed by the shape checks. -/
def parseAndCheck (parsed : Except Str Json) : Except Str RespSchema :=
  match parsed with
  | .error msg => .error msg
  | .ok j => checkShape j

/-- The two text buffers of the editing session. -/
inductive Buf where
  | response
  | history
  deriving DecidableEq

/-- The string value the auto signal takes for a buffer. -/
def bufName : Buf → Str
  | .response => "response".data
  | .history => "history".data

/-- The signals of one CharacterSchema editing session, plus the two
externally observable outputs: the last value passed to the update
callback (`committed`) and the last toast error (`toast`). -/
structure SessionState where
  showModal : Bool
  schema : List JsonField
  showImport : Bool
  response : Str
  hist : Str
  candidate : List JsonField
  auto : Str
  hotkey : Bool
  resErr : Str
  histErr : Str
  committed : Option RespSchema
  toast : Option Str
  deriving DecidableEq

/-- The validation createEffect: recompute both buffers' error texts from
the current texts and the current candidate field names.  It runs after
every change to the response text, the history text or the candidate
field list. -/
def runValidation (st : SessionState) : SessionState :=
  let names := st.candidate.map (fun f => f.name)
  { st with resErr := validateErr st.response names st.resErr
            histErr := validateErr st.hist names st.histErr }

/-- The close handler: on save, pass the current history, response and
candidate schema to the update callback (and persistence) and overwrite
the schema signal with the candidate; in both cases clear both error
texts and hide the modal. -/
def closeFn (st : SessionState) (save : Bool) : SessionState :=
  let st1 :=
    if save then
      { st with
        committed := some { history := st.hist, response := st.response, schema := st.candidate }
        schema := st.candidate }
    else st
  { st1 with histErr := [], resErr := [], showModal := false }

/-- The importSchema handler: hide the import modal; when a schema was
produced, replace the candidate fields and both templates with the
imported ones and then invoke close with save set. -/
def importSchemaFn (st : SessionState) (rs : Option RespSchema) : SessionState :=
  let st1 := { st with showImport := false }
  match rs with
  | none => st1
  | some s =>
    closeFn { st1 with candidate := s.schema, hist := s.history, response := s.response } true

/-- The body of onAutoComplete: the target textarea is chosen by the
current value of the auto signal (history first, then response, else
none); its text is rewritten by the pure insertion algorithm; finally the
hotkey flag and the auto signal are cleared.  The caret offset is the
selectionStart of the chosen textarea, supplied by the UI. -/
def applyInsert (st : SessionState) (caret : Nat) (label : Str) : SessionState :=
  let st1 :=
    if st.auto = "history".data then
      { st with hist := (onAutoCompletePure st.hist caret st.hotkey label).1 }
    else if st.auto = "response".data then
      { st with response := (onAutoCompletePure st.response caret st.hotkey label).1 }
    else st
  { st1 with hotkey := false, auto := [] }

/-- The user-interface events of one editing session.  Typing an opening
brace fires the keydown handler before the character reaches the text, so
the text change arrives as a separate input event. -/
inductive Event where
  | inputResponse (s : Str)
  | inputHistory (s : Str)
  | candidateUpdate (fields : List JsonField)
  | fieldNameChange (fromName toName : Str)
  | keyBrace (b : Buf)
  | keyHotkey (b : Buf)
  | autoDismiss
  | autoSelect (label : Str) (caret : Nat)
  | openModal
  | closeCancel
  | closeAccept
  | openImport
  | importClose
  | importFile (parsed : Except Str Json)
  | inheritChange (rs : RespSchema)

/-- One step of the editing session: the synchronous effect of an event,
followed by the validation createEffect whenever the event changed one of
its dependencies (the response text, the history text or the candidate
fields).  A failed import only raises a toast. -/
def step (st : SessionState) (e : Event) : SessionState :=
  match e with
  | .inputResponse s => runValidation { st with response := s }
  | .inputHistory s => runValidation { st with hist := s }
  | .candidateUpdate fields => runValidation { st with candidate := fields }
  | .fieldNameChange fromName toName =>
    runValidation { st with
      response := replaceAll st.response (tok fromName) (tok toName)
      hist := replaceAll st.hist (tok fromName) (tok toName) }
  | .keyBrace b => { st with auto := bufName b }
  | .keyHotkey b => { st with hotkey := true, auto := bufName b }
  | .autoDismiss => { st with auto := [] }
  | .autoSelect label caret => runValidation (applyInsert st caret label)
  | .openModal => { st with showModal := true }
  | .closeCancel => closeFn st false
  | .closeAccept => closeFn st true
  | .openImport => { st with showImport := true }
  | .importClose => importSchemaFn st none
  | .importFile parsed =>
    match parseAndCheck parsed with
    | .ok rs => runValidation (importSchemaFn st (some rs))
    | .error msg => { st with toast := some ("Invalid JSON Schema: ".data ++ msg) }
  | .inheritChange rs =>
    runValidation { st with schema := rs.schema, hist := rs.history, response := rs.response }

/-! ### Facts about the grammar test and the scanner -/

theorem nonBrace_lbrace : nonBrace '{' = false := rfl

theorem nonBrace_rbrace : nonBrace '}' = false := rfl

theorem headTok_nil : headTok [] = none := rfl

theorem headTok_cons_ne (c : Char) (l : Str) (hc : c ≠ '{') : headTok (c :: l) = none := by
  rw [headTok.eq_def]
  split
  · rename_i rest heq
    cases heq
    exact absurd rfl hc
  · rfl

theorem headTok_cons2_ne (c : Char) (l : Str) (hc : c ≠ '{') :
    headTok ('{' :: c :: l) = none := by
  rw [headTok.eq_def]
  split
  · rename_i rest heq
    cases heq
    exact absurd rfl hc
  · rfl

theorem takeWhile_name (n l : Str) (hnb : ∀ c ∈ n, nonBrace c) :
    (n ++ '}' :: l).takeWhile nonBrace = n := by
  rw [List.takeWhile_append_of_pos hnb]
  simp [List.takeWhile_cons, nonBrace_rbrace]

theorem dropWhile_name (n l : Str) (hnb : ∀ c ∈ n, nonBrace c) :
    (n ++ '}' :: l).dropWhile nonBrace = '}' :: l := by
  rw [List.dropWhile_append_of_pos hnb]
  simp [List.dropWhile_cons, nonBrace_rbrace]

theorem tok_append (n s : Str) : tok n ++ s = '{' :: '{' :: (n ++ '}' :: '}' :: s) := by
  simp [tok]

theorem headTok_tok (n s : Str) (hn : n ≠ []) (hnb : ∀ c ∈ n, nonBrace c) :
    headTok (tok n ++ s) = some (n, s) := by
  rw [tok_append]
  simp only [headTok, takeWhile_name n ('}' :: s) hnb, dropWhile_name n ('}' :: s) hnb]
  simp [hn]

theorem headTok_some_inv {t n tail : Str} (h : headTok t = some (n, tail)) :
    n ≠ [] ∧ (∀ c ∈ n, nonBrace c = true) ∧ t = tok n ++ tail := by
  cases t with
  | nil => rw [headTok_nil] at h; cases h
  | cons c1 t1 =>
    by_cases h1 : c1 = '{'
    case neg => rw [headTok_cons_ne c1 t1 h1] at h; cases h
    subst h1
    cases t1 with
    | nil =>
      rw [show headTok ['{'] = none from rfl] at h
      cases h
    | cons c2 t2 =>
      by_cases h2 : c2 = '{'
      case neg => rw [headTok_cons2_ne c2 t2 h2] at h; cases h
      subst h2
      simp only [headTok] at h
      by_cases hc : t2.takeWhile nonBrace ≠ [] ∧ (t2.dropWhile nonBrace).take 2 = ['}', '}']
      · rw [if_pos hc] at h
        simp only [Option.some.injEq, Prod.mk.injEq] at h
        obtain ⟨hname, htail⟩ := h
        subst hname
        subst htail
        refine ⟨hc.1, fun c hcmem => List.mem_takeWhile_imp hcmem, ?_⟩
        simp only [tok_append, List.cons.injEq, true_and]
        conv_lhs => rw [← List.takeWhile_append_dropWhile nonBrace t2]
        congr 1
        conv_lhs => rw [← List.take_append_drop 2 (t2.dropWhile nonBrace)]
        rw [hc.2]
        rfl
      · rw [if_neg hc] at h
        cases h

theorem matchAux_nil (fuel : Nat) : matchAux fuel [] = [] := by
  cases fuel <;> rfl

theorem matchAux_cons_some {c : Char} {rest n tail : Str} (fuel : Nat)
    (h : headTok (c :: rest) = some (n, tail)) :
    matchAux (fuel + 1) (c :: rest) = tok n :: matchAux fuel tail := by
  simp [matchAux, h, tok]

theorem matchAux_cons_none {c : Char} {rest : Str} (fuel : Nat)
    (h : headTok (c :: rest) = none) :
    matchAux (fuel + 1) (c :: rest) = matchAux fuel rest := by
  simp [matchAux, h]

/-! ### The scanner finds exactly the tokens, in positional order -/

theorem tokenStart_zero (t : Str) : tokenStart t 0 = (headTok t).map (fun x => x.1) := by
  simp [tokenStart]

theorem tokenStart_succ (c : Char) (t : Str) (p : Nat) :
    tokenStart (c :: t) (p + 1) = tokenStart t p := by
  simp [tokenStart]

theorem specNames_nil : specNames [] = [] := rfl

theorem specNames_cons (c : Char) (t : Str) :
    specNames (c :: t) = ((headTok (c :: t)).map (fun x => x.1)).toList ++ specNames t := by
  have hcomp : tokenStart (c :: t) ∘ Nat.succ = tokenStart t := by
    funext p
    exact tokenStart_succ c t p
  rw [specNames, List.length_cons, List.range_succ_eq_map, ← tokenStart_zero]
  cases h : tokenStart (c :: t) 0 with
  | none =>
    rw [List.filterMap_cons_none h, List.filterMap_map, hcomp]
    simp [specNames]
  | some nm =>
    rw [List.filterMap_cons_some h, List.filterMap_map, hcomp]
    simp [specNames]

theorem specNames_skip (m : Str) (hm : ∀ c ∈ m, c ≠ '{') (s : Str) :
    specNames (m ++ s) = specNames s := by
  induction m with
  | nil => simp
  | cons c m ih =>
    rw [List.cons_append, specNames_cons,
      headTok_cons_ne c (m ++ s) (hm c (List.mem_cons_self c m))]
    exact ih (fun c' hc' => hm c' (List.mem_cons_of_mem c hc'))

theorem specNames_tok (n s : Str) (hn : n ≠ []) (hnb : ∀ c ∈ n, nonBrace c) :
    specNames (tok n ++ s) = n :: specNames s := by
  obtain ⟨c0, n0, hn0⟩ : ∃ c0 n0, n = c0 :: n0 := by
    cases n with
    | nil => exact absurd rfl hn
    | cons c0 n0 => exact ⟨c0, n0, rfl⟩
  have hc0 : c0 ≠ '{' := by
    intro hcontra
    have := hnb c0 (hn0 ▸ List.mem_cons_self c0 n0)
    rw [hcontra, nonBrace_lbrace] at this
    cases this
  have h1 : headTok (tok n ++ s) = some (n, s) := headTok_tok n s hn hnb
  rw [tok_append, specNames_cons, ← tok_append, h1]
  have h2 : headTok ('{' :: (n ++ '}' :: '}' :: s)) = none := by
    rw [hn0, List.cons_append]
    exact headTok_cons2_ne c0 (n0 ++ '}' :: '}' :: s) hc0
  rw [specNames_cons, h2]
  have h3 : specNames (n ++ '}' :: '}' :: s) = specNames s := by
    have : n ++ '}' :: '}' :: s = (n ++ ['}', '}']) ++ s := by simp
    rw [this]
    refine specNames_skip (n ++ ['}', '}']) ?_ s
    intro c hc
    rcases List.mem_append.mp hc with hmem | hmem
    · intro hcontra
      have := hnb c hmem
      rw [hcontra, nonBrace_lbrace] at this
      cases this
    · have hc' : c = '}' := by
        rcases List.mem_cons.mp hmem with h | h
        · exact h
        · simpa using h
      subst hc'
      decide
  simp [h3]

theorem matchAux_eq_spec (fuel : Nat) : ∀ t : Str, t.length ≤ fuel →
    matchAux fuel t = (specNames t).map tok := by
  induction fuel with
  | zero =>
    intro t ht
    have hnil : t = [] := List.length_eq_zero.mp (Nat.le_zero.mp ht)
    subst hnil
    rfl
  | succ fuel ih =>
    intro t ht
    cases t with
    | nil => rw [matchAux_nil, specNames_nil]; rfl
    | cons c rest =>
      cases h : headTok (c :: rest) with
      | some pr =>
        obtain ⟨n, tail⟩ := pr
        obtain ⟨hn, hnb, hteq⟩ := headTok_some_inv h
        have hlen : tail.length ≤ fuel := by
          have hleq := congrArg List.length hteq
          simp only [List.length_cons, tok, List.length_append, List.length_nil] at hleq ht
          omega
        rw [matchAux_cons_some fuel h, ih tail hlen, hteq,
          specNames_tok n tail hn hnb, List.map_cons]
      | none =>
        have hlen : rest.length ≤ fuel := by
          simp only [List.length_cons] at ht
          omega
        rw [matchAux_cons_none fuel h, ih rest hlen, specNames_cons, h]
        rfl

theorem matchRE_eq_spec (t : Str) : matchRE t = (specNames t).map tok :=
  matchAux_eq_spec t.length t (Nat.le_refl _)

/-! ### The validation loop is a filter over the token names -/

theorem jsSlice_tok (n : Str) : jsSlice (tok n) 2 (-2) = n := by
  have hlen : (tok n).length = n.length + 4 := by
    simp only [tok, List.length_cons, List.length_append, List.length_nil]
  have hb : jsIndex (tok n).length (-2) = n.length + 2 := by
    rw [jsIndex, if_pos (by omega), hlen]
    omega
  have ha : jsIndex (tok n).length 2 = 2 := by
    rw [jsIndex, if_neg (by omega), hlen]
    omega
  rw [jsSlice, ha, hb]
  have htake : (tok n).take (n.length + 2) = '{' :: '{' :: n := by
    have h1 : tok n = ('{' :: '{' :: n) ++ ['}', '}'] := by simp [tok]
    have h2 : ('{' :: '{' :: n).length = n.length + 2 := by simp
    rw [h1, List.take_left' h2]
  rw [htake]
  rfl

theorem badLoop_map_tok (ns names : List Str) :
    badLoop (ns.map tok) names = ns.filter (fun nm => decide (nm ∉ names)) := by
  induction ns with
  | nil => rfl
  | cons n rest ih =>
    by_cases hn : n ∈ names
    · simp [badLoop, jsSlice_tok, hn, ih, List.filter_cons]
    · simp [badLoop, jsSlice_tok, hn, ih, List.filter_cons]

/-- C1: for every text and valid-name set, the unresolved list computed by
the validation loop over the global regex match is exactly the list of
inner names of the placeholder tokens occurring in the text, in order of
occurrence and with duplicates retained, restricted to names not in the
valid set; no other substrings contribute. -/
theorem c1_validator_exact (t : Str) (validNames : List Str) :
    badLoop (matchRE t) validNames
      = (specNames t).filter (fun nm => decide (nm ∉ validNames)) := by
  rw [matchRE_eq_spec, badLoop_map_tok]

/-! ### Facts about replace-all (split/join) -/

theorem isPrefixOf_ex : ∀ (l₁ l₂ : Str), l₁.isPrefixOf l₂ = true ↔ ∃ u, l₂ = l₁ ++ u
  | [], l₂ => by simp
  | a :: l₁, [] => by simp
  | a :: l₁, b :: l₂ => by
    simp only [List.isPrefixOf, Bool.and_eq_true, beq_iff_eq, List.cons_append,
      List.cons.injEq]
    constructor
    · rintro ⟨rfl, h⟩
      obtain ⟨u, rfl⟩ := (isPrefixOf_ex l₁ l₂).mp h
      exact ⟨u, rfl, rfl⟩
    · rintro ⟨u, rfl, rfl⟩
      exact ⟨rfl, (isPrefixOf_ex l₁ (l₁ ++ u)).mpr ⟨u, rfl⟩⟩

theorem isPrefixOf_cons_false {a b : Char} (l₁ l₂ : Str) (h : a ≠ b) :
    (a :: l₁).isPrefixOf (b :: l₂) = false := by
  simp [List.isPrefixOf, h]

theorem nonBrace_ne {c : Char} (h : nonBrace c = true) : c ≠ '{' ∧ c ≠ '}' := by
  simp only [nonBrace, Bool.not_eq_true', Bool.or_eq_false_iff, beq_eq_false_iff_ne] at h
  exact h

theorem replaceAllAux_cons_pos (sep rep : Str) (fuel : Nat) {c : Char} {rest : Str}
    (hp : sep.isPrefixOf (c :: rest) = true) :
    replaceAllAux sep rep (fuel + 1) (c :: rest)
      = rep ++ replaceAllAux sep rep fuel ((c :: rest).drop sep.length) := by
  simp [replaceAllAux, hp]

theorem replaceAllAux_cons_neg (sep rep : Str) (fuel : Nat) {c : Char} {rest : Str}
    (hp : sep.isPrefixOf (c :: rest) = false) :
    replaceAllAux sep rep (fuel + 1) (c :: rest) = c :: replaceAllAux sep rep fuel rest := by
  simp [replaceAllAux, hp]

theorem replaceAllAux_succ (sep rep : Str) (hsep : sep ≠ []) :
    ∀ fuel t, t.length ≤ fuel →
      replaceAllAux sep rep (fuel + 1) t = replaceAllAux sep rep fuel t := by
  intro fuel
  induction fuel with
  | zero =>
    intro t ht
    have hnil : t = [] := List.length_eq_zero.mp (Nat.le_zero.mp ht)
    subst hnil
    rfl
  | succ fuel ih =>
    intro t ht
    cases t with
    | nil => rfl
    | cons c rest =>
      cases hp : sep.isPrefixOf (c :: rest) with
      | true =>
        rw [replaceAllAux_cons_pos sep rep (fuel + 1) hp,
          replaceAllAux_cons_pos sep rep fuel hp]
        congr 1
        apply ih
        obtain ⟨u, hu⟩ := (isPrefixOf_ex sep (c :: rest)).mp hp
        rw [hu, List.drop_left]
        have hs1 : 1 ≤ sep.length := by
          cases sep with
          | nil => exact absurd rfl hsep
          | cons a b => simp
        have hlu := congrArg List.length hu
        simp only [List.length_cons, List.length_append] at hlu ht
        omega
      | false =>
        rw [replaceAllAux_cons_neg sep rep (fuel + 1) hp,
          replaceAllAux_cons_neg sep rep fuel hp]
        congr 1
        apply ih
        simp only [List.length_cons] at ht
        omega

theorem replaceAllAux_eq (sep rep : Str) (hsep : sep ≠ []) (fuel : Nat) (t : Str)
    (h : t.length ≤ fuel) : replaceAllAux sep rep fuel t = replaceAll t sep rep := by
  induction fuel, h using Nat.le_induction with
  | base => rfl
  | succ fuel hle ih => rw [replaceAllAux_succ sep rep hsep fuel t hle, ih]

theorem replaceAll_nil (sep rep : Str) : replaceAll [] sep rep = [] := rfl

theorem replaceAll_cons_neg (sep rep : Str) {c : Char} {rest : Str}
    (hp : sep.isPrefixOf (c :: rest) = false) :
    replaceAll (c :: rest) sep rep = c :: replaceAll rest sep rep := by
  rw [replaceAll, List.length_cons, replaceAllAux_cons_neg sep rep rest.length hp]
  rfl

theorem replaceAll_sep_append (sep rep u : Str) (hsep : sep ≠ []) :
    replaceAll (sep ++ u) sep rep = rep ++ replaceAll u sep rep := by
  obtain ⟨c0, sep', rfl⟩ : ∃ c0 sep', sep = c0 :: sep' := by
    cases sep with
    | nil => exact absurd rfl hsep
    | cons a b => exact ⟨a, b, rfl⟩
  have hp : (c0 :: sep').isPrefixOf ((c0 :: sep') ++ u) = true :=
    (isPrefixOf_ex (c0 :: sep') _).mpr ⟨u, rfl⟩
  have hcons : (c0 :: sep') ++ u = c0 :: (sep' ++ u) := rfl
  rw [replaceAll, hcons, List.length_cons, replaceAllAux_cons_pos _ _ _ (hcons ▸ hp)]
  congr 1
  have hdrop : (c0 :: (sep' ++ u)).drop (c0 :: sep').length = u := by
    rw [List.length_cons, List.drop_succ_cons, List.drop_left]
  rw [hdrop]
  apply replaceAllAux_eq _ _ hsep
  simp only [List.length_append]
  omega

theorem tok_not_prefix_ne (A : Str) (c : Char) (l : Str) (hc : c ≠ '{') :
    (tok A).isPrefixOf (c :: l) = false := by
  simp only [tok]
  exact isPrefixOf_cons_false _ _ (fun h => hc h.symm)

theorem tok_not_prefix_ne2 (A : Str) (c : Char) (l : Str) (hc : c ≠ '{') :
    (tok A).isPrefixOf ('{' :: c :: l) = false := by
  have hbeq : ('{' == '{') = true := by decide
  simp only [tok, List.isPrefixOf, hbeq, Bool.true_and]
  exact isPrefixOf_cons_false _ _ (fun h => hc h.symm)

theorem replaceAll_skip_run (A rep : Str) :
    ∀ (m : Str), (∀ c ∈ m, c ≠ '{') → ∀ s,
      replaceAll (m ++ s) (tok A) rep = m ++ replaceAll s (tok A) rep := by
  intro m
  induction m with
  | nil => intro _ s; simp
  | cons c m ih =>
    intro hm s
    rw [List.cons_append,
      replaceAll_cons_neg _ _ (tok_not_prefix_ne A c (m ++ s) (hm c (List.mem_cons_self c m))),
      ih (fun c' h' => hm c' (List.mem_cons_of_mem c h')) s]
    rfl

theorem replaceAll_tok_head (A B n s : Str) (hA : A ≠ []) (hAnb : ∀ c ∈ A, nonBrace c)
    (hn : n ≠ []) (hnb : ∀ c ∈ n, nonBrace c) :
    replaceAll (tok n ++ s) (tok A) (tok B)
      = (if n = A then tok B else tok n) ++ replaceAll s (tok A) (tok B) := by
  by_cases hna : n = A
  · subst hna
    rw [if_pos rfl]
    exact replaceAll_sep_append (tok n) (tok B) s (by simp [tok])
  · rw [if_neg hna]
    have h1 : (tok A).isPrefixOf (tok n ++ s) = false := by
      cases hb : (tok A).isPrefixOf (tok n ++ s) with
      | false => rfl
      | true =>
        exfalso
        obtain ⟨u, hu⟩ := (isPrefixOf_ex _ _).mp hb
        have hn' := headTok_tok n s hn hnb
        rw [hu, headTok_tok A u hA hAnb] at hn'
        simp only [Option.some.injEq, Prod.mk.injEq] at hn'
        exact hna hn'.1.symm
    obtain ⟨c0, n0, rfl⟩ : ∃ c0 n0, n = c0 :: n0 := by
      cases n with
      | nil => exact absurd rfl hn
      | cons a b => exact ⟨a, b, rfl⟩
    have hc0 : c0 ≠ '{' := (nonBrace_ne (hnb c0 (List.mem_cons_self c0 n0))).1
    have hform : tok (c0 :: n0) ++ s = '{' :: '{' :: ((c0 :: n0) ++ '}' :: '}' :: s) :=
      tok_append (c0 :: n0) s
    rw [hform, replaceAll_cons_neg _ _ (hform ▸ h1), List.cons_append,
      replaceAll_cons_neg _ _ (tok_not_prefix_ne2 A c0 (n0 ++ '}' :: '}' :: s) hc0)]
    have hrun : replaceAll (c0 :: (n0 ++ '}' :: '}' :: s)) (tok A) (tok B)
        = ((c0 :: n0) ++ ['}', '}']) ++ replaceAll s (tok A) (tok B) := by
      have hsplit : c0 :: (n0 ++ '}' :: '}' :: s) = ((c0 :: n0) ++ ['}', '}']) ++ s := by
        simp
      rw [hsplit]
      apply replaceAll_skip_run
      intro c hc
      rcases List.mem_append.mp hc with hmem | hmem
      · exact (nonBrace_ne (hnb c hmem)).1
      · have hc' : c = '}' := by
          rcases List.mem_cons.mp hmem with h | h
          · exact h
          · simpa using h
        subst hc'
        decide
    rw [hrun]
    simp [tok]

theorem replaceAll_cons_inv (A B : Str) {w : Str} {d : Char} {s' : Str} (hd : d ≠ '{')
    (h : replaceAll w (tok A) (tok B) = d :: s') :
    ∃ w', w = d :: w' ∧ replaceAll w' (tok A) (tok B) = s' := by
  cases w with
  | nil => rw [replaceAll_nil] at h; cases h
  | cons c rest =>
    cases hp : (tok A).isPrefixOf (c :: rest) with
    | true =>
      exfalso
      obtain ⟨u, hu⟩ := (isPrefixOf_ex _ _).mp hp
      rw [hu, replaceAll_sep_append _ _ _ (by simp [tok]), tok_append] at h
      injection h with h1 _
      exact hd h1.symm
    | false =>
      rw [replaceAll_cons_neg _ _ hp] at h
      injection h with h1 h2
      exact ⟨rest, by rw [h1], h2⟩

theorem replaceAll_run_inv (A B : Str) :
    ∀ (m : Str), (∀ c ∈ m, c ≠ '{') → ∀ (w u : Str),
      replaceAll w (tok A) (tok B) = m ++ '}' :: '}' :: u →
      ∃ w', w = m ++ '}' :: '}' :: w' ∧ replaceAll w' (tok A) (tok B) = u := by
  intro m
  induction m with
  | nil =>
    intro _ w u h
    simp only [List.nil_append] at h ⊢
    obtain ⟨w1, rfl, h1⟩ := replaceAll_cons_inv A B (by decide) h
    obtain ⟨w2, rfl, h2⟩ := replaceAll_cons_inv A B (by decide) h1
    exact ⟨w2, rfl, h2⟩
  | cons c m ih =>
    intro hm w u h
    rw [List.cons_append] at h
    obtain ⟨w1, rfl, h1⟩ := replaceAll_cons_inv A B (hm c (List.mem_cons_self c m)) h
    obtain ⟨w', hw', h'⟩ := ih (fun c' hc' => hm c' (List.mem_cons_of_mem c hc')) w1 u h1
    exact ⟨w', by simp [hw'], h'⟩

theorem replaceAll_lbrace_inv (A B : Str) {w s' : Str}
    (h : replaceAll w (tok A) (tok B) = '{' :: s') :
    (∃ u, w = tok A ++ u ∧ '{' :: s' = tok B ++ replaceAll u (tok A) (tok B))
    ∨ (∃ w', w = '{' :: w' ∧ replaceAll w' (tok A) (tok B) = s') := by
  cases w with
  | nil => rw [replaceAll_nil] at h; cases h
  | cons c rest =>
    cases hp : (tok A).isPrefixOf (c :: rest) with
    | true =>
      obtain ⟨u, hu⟩ := (isPrefixOf_ex _ _).mp hp
      left
      refine ⟨u, hu, ?_⟩
      rw [← h, hu, replaceAll_sep_append _ _ _ (by simp [tok])]
    | false =>
      right
      rw [replaceAll_cons_neg _ _ hp] at h
      injection h with h1 h2
      exact ⟨rest, by rw [h1], h2⟩

theorem headTok_none_replaceAll (A B : Str) {c : Char} {rest : Str}
    (h : headTok (c :: rest) = none) :
    headTok (c :: replaceAll rest (tok A) (tok B)) = none := by
  cases hh : headTok (c :: replaceAll rest (tok A) (tok B)) with
  | none => rfl
  | some pr =>
    exfalso
    obtain ⟨m, tail⟩ := pr
    obtain ⟨hm, hmnb, heq⟩ := headTok_some_inv hh
    rw [tok_append] at heq
    injection heq with hc heq2
    rcases replaceAll_lbrace_inv A B heq2 with ⟨u, hw, habs⟩ | ⟨w', hw, hrw⟩
    · rw [tok_append] at habs
      injection habs with _ habs2
      obtain ⟨m0, mrest, rfl⟩ : ∃ m0 mrest, m = m0 :: mrest := by
        cases m with
        | nil => exact absurd rfl hm
        | cons a b => exact ⟨a, b, rfl⟩
      rw [List.cons_append] at habs2
      injection habs2 with hm0 _
      exact (nonBrace_ne (hmnb m0 (List.mem_cons_self m0 mrest))).1 hm0
    · obtain ⟨w'', hw'', _⟩ := replaceAll_run_inv A B m
        (fun c' hc' => (nonBrace_ne (hmnb c' hc')).1) w' tail hrw
      have hfound : headTok (c :: rest) = some (m, w'') := by
        rw [hc, hw, hw'']
        rw [show ('{' : Char) :: '{' :: (m ++ '}' :: '}' :: w'') = tok m ++ w''
          from (tok_append m w'').symm]
        exact headTok_tok m w'' hm hmnb
      rw [h] at hfound
      cases hfound

theorem specNames_replaceAll_fuel (A B : Str) (hA : A ≠ []) (hAnb : ∀ c ∈ A, nonBrace c)
    (hB : B ≠ []) (hBnb : ∀ c ∈ B, nonBrace c) :
    ∀ fuel t, t.length ≤ fuel →
      specNames (replaceAll t (tok A) (tok B))
        = (specNames t).map (fun n => if n = A then B else n) := by
  intro fuel
  induction fuel with
  | zero =>
    intro t ht
    have hnil : t = [] := List.length_eq_zero.mp (Nat.le_zero.mp ht)
    subst hnil
    rfl
  | succ fuel ih =>
    intro t ht
    cases t with
    | nil => rfl
    | cons c rest =>
      cases hht : headTok (c :: rest) with
      | some pr =>
        obtain ⟨n, tail⟩ := pr
        obtain ⟨hn, hnb, hteq⟩ := headTok_some_inv hht
        have hlen : tail.length ≤ fuel := by
          have hleq := congrArg List.length hteq
          simp only [List.length_cons, tok, List.length_append, List.length_nil] at hleq ht
          omega
        rw [hteq, replaceAll_tok_head A B n tail hA hAnb hn hnb]
        by_cases hna : n = A
        · rw [if_pos hna, specNames_tok B _ hB hBnb, specNames_tok n tail hn hnb,
            ih tail hlen]
          simp [hna]
        · rw [if_neg hna, specNames_tok n _ hn hnb, specNames_tok n tail hn hnb,
            ih tail hlen]
          simp [hna]
      | none =>
        have hp : (tok A).isPrefixOf (c :: rest) = false := by
          cases hb : (tok A).isPrefixOf (c :: rest) with
          | false => rfl
          | true =>
            exfalso
            obtain ⟨u, hu⟩ := (isPrefixOf_ex _ _).mp hb
            rw [hu, headTok_tok A u hA hAnb] at hht
            cases hht
        have hnone := headTok_none_replaceAll A B hht
        have hlen : rest.length ≤ fuel := by
          simp only [List.length_cons] at ht
          omega
        rw [replaceAll_cons_neg _ _ hp, specNames_cons, hnone, specNames_cons, hht,
          ih rest hlen]
        rfl

theorem specNames_replaceAll (A B : Str) (hA : A ≠ []) (hAnb : ∀ c ∈ A, nonBrace c)
    (hB : B ≠ []) (hBnb : ∀ c ∈ B, nonBrace c) (t : Str) :
    specNames (replaceAll t (tok A) (tok B))
      = (specNames t).map (fun n => if n = A then B else n) :=
  specNames_replaceAll_fuel A B hA hAnb hB hBnb t.length t (Nat.le_refl _)

theorem not_mem_map_rename (A B : Str) (l : List Str) (hAB : A ≠ B) :
    A ∉ l.map (fun n => if n = A then B else n) := by
  intro hmem
  obtain ⟨n, _, hn⟩ := List.mem_map.mp hmem
  by_cases h : n = A
  · rw [if_pos h] at hn
    exact hAB hn.symm
  · rw [if_neg h] at hn
    exact h hn

/-- C2: the rename handler rewrites each of the two buffers independently
by replacing every leftmost occurrence of the literal old-name token with
the new-name token (the split/join of onFieldNameChange).  The resulting
placeholder list of each buffer is the original one with exactly the
placeholders named fromName relabelled to toName — so a placeholder whose
name merely has fromName as a prefix is untouched, no placeholder is
created or removed, and when the two names differ no fromName placeholder
remains. -/
theorem c2_rename_propagation (st : SessionState) (fromName toName : Str)
    (hf : fromName ≠ []) (hfnb : ∀ c ∈ fromName, nonBrace c)
    (htn : toName ≠ []) (htnb : ∀ c ∈ toName, nonBrace c) :
    (step st (.fieldNameChange fromName toName)).response
        = replaceAll st.response (tok fromName) (tok toName)
    ∧ (step st (.fieldNameChange fromName toName)).hist
        = replaceAll st.hist (tok fromName) (tok toName)
    ∧ specNames (step st (.fieldNameChange fromName toName)).response
        = (specNames st.response).map (fun n => if n = fromName then toName else n)
    ∧ specNames (step st (.fieldNameChange fromName toName)).hist
        = (specNames st.hist).map (fun n => if n = fromName then toName else n)
    ∧ (fromName ≠ toName →
        fromName ∉ specNames (step st (.fieldNameChange fromName toName)).response
        ∧ fromName ∉ specNames (step st (.fieldNameChange fromName toName)).hist) := by
  have hresp : (step st (.fieldNameChange fromName toName)).response
      = replaceAll st.response (tok fromName) (tok toName) := rfl
  have hhist : (step st (.fieldNameChange fromName toName)).hist
      = replaceAll st.hist (tok fromName) (tok toName) := rfl
  have hspecR := specNames_replaceAll fromName toName hf hfnb htn htnb st.response
  have hspecH := specNames_replaceAll fromName toName hf hfnb htn htnb st.hist
  refine ⟨hresp, hhist, hresp ▸ hspecR, hhist ▸ hspecH, fun hne => ⟨?_, ?_⟩⟩
  · rw [hresp, hspecR]
    exact not_mem_map_rename fromName toName _ hne
  · rw [hhist, hspecH]
    exact not_mem_map_rename fromName toName _ hne

/-- Witness for c2_rename_propagation: renaming a to b in the buffer
x-then-token-a-then-token-ax relabels the a placeholder and leaves the ax
placeholder untouched. -/
theorem c2_rename_propagation_witness :
    ("a".data ≠ [] ∧ (∀ c ∈ "a".data, nonBrace c)
      ∧ "b".data ≠ [] ∧ (∀ c ∈ "b".data, nonBrace c))
    ∧ specNames (step
        { showModal := true, schema := [], showImport := false,
          response := 'x' :: (tok "a".data ++ tok "ax".data), hist := tok "a".data,
          candidate := [], auto := [], hotkey := false, resErr := [], histErr := [],
          committed := none, toast := none }
        (.fieldNameChange "a".data "b".data)).response
      = (specNames ('x' :: (tok "a".data ++ tok "ax".data))).map
          (fun n => if n = "a".data then "b".data else n) :=
  ⟨⟨by decide, by decide, by decide, by decide⟩,
    (c2_rename_propagation
      { showModal := true, schema := [], showImport := false,
        response := 'x' :: (tok "a".data ++ tok "ax".data), hist := tok "a".data,
        candidate := [], auto := [], hotkey := false, resErr := [], histErr := [],
        committed := none, toast := none }
      "a".data "b".data (by decide) (by decide) (by decide) (by decide)).2.2.1⟩

/-! ### The insertion algorithm -/

theorem jsIndex_zero (len : Nat) : jsIndex len 0 = 0 := by
  rw [jsIndex, if_neg (by omega)]
  simp

theorem jsSlice_zero_nat (l : Str) (k : Nat) : jsSlice l 0 (k : Int) = l.take k := by
  rw [jsSlice]
  have hk : jsIndex l.length (k : Int) = min k l.length := by
    rw [jsIndex, if_neg (by omega)]
    simp
  rw [jsIndex_zero, hk, List.drop_zero]
  rcases Nat.le_total k l.length with h | h
  · rw [Nat.min_eq_left h]
  · rw [Nat.min_eq_right h, List.take_length, List.take_of_length_le h]

theorem take_pred_eq_dropLast (l : Str) : l.take (l.length - 1) = l.dropLast := by
  rcases List.eq_nil_or_concat l with rfl | ⟨L, b, rfl⟩
  · rfl
  · rw [List.concat_eq_append, List.dropLast_concat]
    have hlen : (L ++ [b]).length - 1 = L.length := by simp
    rw [hlen, List.take_left]

theorem isSuffixOf_append_self (s l : Str) : s.isSuffixOf (l ++ s) = true := by
  rw [List.isSuffixOf_iff_suffix]
  exact List.suffix_append l s

theorem isSuffixOf_pair (c d : Char) (l : Str) (x y : Char) :
    ([c, d] : Str).isSuffixOf (l ++ [x, y]) = true ↔ x = c ∧ y = d := by
  rw [List.isSuffixOf_iff_suffix]
  constructor
  · rintro ⟨p, hp⟩
    have h2 := (List.append_inj' hp (by simp)).2
    simp only [List.cons.injEq, and_true] at h2
    exact ⟨h2.1.symm, h2.2.symm⟩
  · rintro ⟨rfl, rfl⟩
    exact ⟨l, rfl⟩

/-- C10: the before-caret slice of the brace-typed insertion path follows
JavaScript slice semantics: at caret offset 0 the end index is -1, so the
slice is the whole buffer minus its last character; only for caret
offsets of at least 1 is it the prefix of length caret minus one. -/
theorem c10_before_slice :
    (∀ text : Str, beforeSlice text 0 false = text.dropLast)
    ∧ (∀ (text : Str) (caret : Nat), 1 ≤ caret →
        beforeSlice text caret false = text.take (caret - 1)) := by
  constructor
  · intro text
    rw [beforeSlice]
    have hneg : ((0 : Nat) : Int) - (if false = true then 0 else 1) = -1 := by norm_num
    rw [hneg, jsSlice, jsIndex_zero, List.drop_zero]
    have hidx : jsIndex text.length (-1) = text.length - 1 := by
      rw [jsIndex, if_pos (by omega)]
      omega
    rw [hidx, take_pred_eq_dropLast]
  · intro text caret hc
    rw [beforeSlice]
    have hcast : ((caret : Nat) : Int) - (if false = true then 0 else 1)
        = ((caret - 1 : Nat) : Int) := by
      simp only [Bool.false_eq_true, if_false]
      omega
    rw [hcast, jsSlice_zero_nat]

/-- Witness for c10_before_slice at caret 2 and caret 0 on a two-character
buffer. -/
theorem c10_before_slice_witness :
    (1 ≤ 2 ∧ beforeSlice "ab".data 2 false = "ab".data.take 1)
    ∧ beforeSlice "ab".data 0 false = "ab".data.dropLast :=
  ⟨⟨by decide, c10_before_slice.2 "ab".data 2 (by decide)⟩,
    c10_before_slice.1 "ab".data⟩

theorem onAutoCompletePure_parts (text : Str) (caret : Nat) (hotkey : Bool) (label : Str)
    (b0 a0 : Str) (hb : beforeSlice text caret hotkey = b0) (ha : text.drop caret = a0) :
    onAutoCompletePure text caret hotkey label =
      ((if (['{', '{'] : Str).isSuffixOf b0 then b0
        else if (['{'] : Str).isSuffixOf b0 then b0 ++ ['{'] else b0 ++ ['{', '{'])
        ++ label ++ (if (['}'] : Str).isPrefixOf a0 then a0 else ['}', '}'] ++ a0),
       (if (['{', '{'] : Str).isSuffixOf b0 then b0
        else if (['{'] : Str).isSuffixOf b0 then b0 ++ ['{'] else b0 ++ ['{', '{']).length
         + label.length) := by
  subst hb
  subst ha
  rfl

/-- C3: when the caret sits immediately after an open-brace pair and
immediately before a close-brace pair, the insertion algorithm on either
path splices the selected name into the existing brace pair: the result
text is some prefix followed by exactly one open-brace pair, the name,
and the original close-brace pair and tail; the new caret sits
immediately after the name (the algorithm's before-length plus the name
length); and no braces accumulate, the result being at most the original
text plus the name in length. -/
theorem c3_insertion_idempotent (u v label : Str) (hotkey : Bool) :
    ∃ w : Str,
      (w = u ∨ w ++ ['{'] = u)
      ∧ (onAutoCompletePure (u ++ '{' :: '{' :: '}' :: '}' :: v) (u.length + 2) hotkey label).1
        = w ++ '{' :: '{' :: (label ++ '}' :: '}' :: v)
      ∧ (onAutoCompletePure (u ++ '{' :: '{' :: '}' :: '}' :: v) (u.length + 2) hotkey label).2
        = w.length + 2 + label.length
      ∧ (onAutoCompletePure (u ++ '{' :: '{' :: '}' :: '}' :: v) (u.length + 2) hotkey
          label).1.length
        ≤ (u ++ '{' :: '{' :: '}' :: '}' :: v).length + label.length := by
  have hsplit2 : u ++ '{' :: '{' :: '}' :: '}' :: v = (u ++ ['{', '{']) ++ '}' :: '}' :: v := by
    simp
  have hafter : (u ++ '{' :: '{' :: '}' :: '}' :: v).drop (u.length + 2) = '}' :: '}' :: v := by
    rw [hsplit2]
    exact List.drop_left' (by simp)
  have hap : (['}'] : Str).isPrefixOf ('}' :: '}' :: v) = true := by
    simp [List.isPrefixOf]
  cases hotkey with
  | true =>
    have hb0 : beforeSlice (u ++ '{' :: '{' :: '}' :: '}' :: v) (u.length + 2) true
        = u ++ ['{', '{'] := by
      rw [beforeSlice]
      have hc : ((u.length + 2 : Nat) : Int) - (if true = true then 0 else 1)
          = ((u.length + 2 : Nat) : Int) := by simp
      rw [hc, jsSlice_zero_nat, hsplit2]
      exact List.take_left' (by simp)
    rw [onAutoCompletePure_parts _ _ _ label _ _ hb0 hafter,
      if_pos (isSuffixOf_append_self ['{', '{'] u), if_pos hap]
    refine ⟨u, Or.inl rfl, by simp, by simp, ?_⟩
    simp only [List.length_append, List.length_cons, List.length_nil]
    omega
  | false =>
    rcases List.eq_nil_or_concat u with rfl | ⟨u', a, rfl⟩
    · have hb0 : beforeSlice (([] : Str) ++ '{' :: '{' :: '}' :: '}' :: v)
          (List.length ([] : Str) + 2) false = ['{'] := by
        rw [beforeSlice]
        have hc : ((List.length ([] : Str) + 2 : Nat) : Int) - (if false = true then 0 else 1)
            = ((1 : Nat) : Int) := by
          simp
        rw [hc, jsSlice_zero_nat]
        rfl
      rw [onAutoCompletePure_parts _ _ _ label _ _ hb0 hafter,
        if_neg (by decide), if_pos (by decide), if_pos hap]
      refine ⟨[], Or.inl rfl, by simp, by simp, ?_⟩
      simp
      omega
    · rw [List.concat_eq_append] at *
      have hb0 : beforeSlice ((u' ++ [a]) ++ '{' :: '{' :: '}' :: '}' :: v)
          ((u' ++ [a]).length + 2) false = u' ++ [a, '{'] := by
        rw [beforeSlice]
        have hc : (((u' ++ [a]).length + 2 : Nat) : Int) - (if false = true then 0 else 1)
            = (((u' ++ [a]).length + 1 : Nat) : Int) := by
          simp only [Bool.false_eq_true, if_false]
          omega
        rw [hc, jsSlice_zero_nat]
        have hre : (u' ++ [a]) ++ '{' :: '{' :: '}' :: '}' :: v
            = (u' ++ [a, '{']) ++ '{' :: '}' :: '}' :: v := by simp
        rw [hre]
        exact List.take_left' (by simp)
      by_cases haeq : a = '{'
      · subst haeq
        have hb0' : beforeSlice ((u' ++ ['{']) ++ '{' :: '{' :: '}' :: '}' :: v)
            ((u' ++ ['{']).length + 2) false = u' ++ ['{', '{'] := hb0
        rw [onAutoCompletePure_parts _ _ _ label _ _ hb0' hafter,
          if_pos (isSuffixOf_append_self ['{', '{'] u'), if_pos hap]
        refine ⟨u', Or.inr rfl, by simp, by simp, ?_⟩
        simp only [List.length_append, List.length_cons, List.length_nil]
        omega
      · have hns : ¬((['{', '{'] : Str).isSuffixOf (u' ++ [a, '{']) = true) := by
          intro hcon
          exact haeq ((isSuffixOf_pair '{' '{' u' a '{').mp hcon).1
        have hys : (['{'] : Str).isSuffixOf (u' ++ [a, '{']) = true := by
          have hform : u' ++ [a, '{'] = (u' ++ [a]) ++ ['{'] := by simp
          rw [hform]
          exact isSuffixOf_append_self ['{'] (u' ++ [a])
        rw [onAutoCompletePure_parts _ _ _ label _ _ hb0 hafter,
          if_neg hns, if_pos hys, if_pos hap]
        refine ⟨u' ++ [a], Or.inl rfl, by simp, by simp, ?_⟩
        simp only [List.length_append, List.length_cons, List.length_nil]
        omega

/-! ### Session-level claims -/

/-- A fresh editing session: modal open, empty buffers, no fields. -/
def emptySession : SessionState :=
  { showModal := true, schema := [], showImport := false, response := [], hist := [],
    candidate := [], auto := [], hotkey := false, resErr := [], histErr := [],
    committed := none, toast := none }

/-- Counterexample to C6 as stated: on the hotkey path in an empty buffer
with selected name foo the algorithm yields the single-token text with
the caret at offset 5 — not offset 6 as the claim asserts. -/
theorem c6_counterexample :
    onAutoCompletePure [] 0 true "foo".data = (tok "foo".data, 5)
    ∧ (onAutoCompletePure [] 0 true "foo".data).2 ≠ 6 := by decide

/-- C6 amended: invoking the insertion algorithm on an empty buffer via
the hotkey path with selected name foo yields the buffer text of a single
foo token with the caret at offset 5, immediately after foo, i.e. the
length of the open-brace pair plus foo. -/
theorem c6_insert_from_scratch :
    (step (step emptySession (.keyHotkey .response)) (.autoSelect "foo".data 0)).response
      = tok "foo".data
    ∧ onAutoCompletePure [] 0 true "foo".data = (tok "foo".data, 5)
    ∧ (tok "foo".data).length = 7 := by decide

/-- C4 fails on the code: after the response text, whose diagnostic was
the unresolved name mp, is replaced by a text with no placeholder matches
at all, the match result is null, the error setter is skipped and the
stale diagnostic mp survives — while the freshly computed unresolved set
of the new text is empty. -/
theorem c4_stale_diagnostic :
    (step (step emptySession (.inputResponse (tok "mp".data))) (.inputResponse "hello".data)).resErr
      = "mp".data
    ∧ (step emptySession (.inputResponse (tok "mp".data))).resErr = "mp".data
    ∧ specNames "hello".data = []
    ∧ badLoop (matchRE "hello".data) [] = [] := by decide

/-- Counterexample to C8: with two unresolved mp placeholders in the text
the displayed error string is the raw join mp-comma-mp — the unresolved
name appears twice in the display, not at most once. -/
theorem c8_counterexample :
    (step emptySession (.inputResponse (tok "mp".data ++ ' ' :: tok "mp".data))).resErr
      = "mp, mp".data
    ∧ badLoop (matchRE (tok "mp".data ++ ' ' :: tok "mp".data)) []
      = ["mp".data, "mp".data]
    ∧ "mp, mp".data ≠ joinComma ["mp".data] := by decide

/-- C8 amended: when the raw unresolved list is nonempty the user-facing
error text is its comma-separated join, duplicates retained — no
deduplication happens before display. -/
theorem c8_amended_join_raw (text : Str) (names : List Str) (prev : Str)
    (h : badLoop (matchRE text) names ≠ []) :
    validateErr text names prev = joinComma (badLoop (matchRE text) names) := by
  have hvars : ¬(matchRE text = []) := by
    intro hcon
    rw [hcon] at h
    exact h rfl
  simp only [validateErr]
  rw [if_neg hvars, if_neg h]

/-- Witness for c8_amended_join_raw on a text with two unresolved mp
placeholders. -/
theorem c8_amended_join_raw_witness :
    (badLoop (matchRE (tok "mp".data ++ ' ' :: tok "mp".data)) [] ≠ [])
    ∧ validateErr (tok "mp".data ++ ' ' :: tok "mp".data) [] []
      = joinComma (badLoop (matchRE (tok "mp".data ++ ' ' :: tok "mp".data)) []) :=
  ⟨by decide, c8_amended_join_raw (tok "mp".data ++ ' ' :: tok "mp".data) [] [] (by decide)⟩

/-- The other buffer. -/
def otherBuf : Buf → Buf
  | .response => .history
  | .history => .response

/-- A buffer is in the suggesting state when the auto signal holds its
name. -/
def suggesting (st : SessionState) (b : Buf) : Bool := st.auto == bufName b

theorem not_both_names (s : Str) :
    ((s == bufName Buf.response) && (s == bufName Buf.history)) = false := by
  by_cases h : s = bufName Buf.response
  · subst h
    decide
  · have hf : (s == bufName Buf.response) = false := by
      simp [h]
    rw [hf, Bool.false_and]

/-- C9: after any event at most one of the two buffers is in the
suggesting state, and entering suggesting in one buffer — by typing an
opening brace in it or invoking the insert hotkey in it — leaves the
other buffer idle. -/
theorem c9_single_suggesting (st : SessionState) (e : Event) (b : Buf) :
    ((suggesting (step st e) .response && suggesting (step st e) .history) = false)
    ∧ suggesting (step st (.keyBrace b)) b = true
    ∧ suggesting (step st (.keyHotkey b)) b = true
    ∧ suggesting (step st (.keyBrace b)) (otherBuf b) = false
    ∧ suggesting (step st (.keyHotkey b)) (otherBuf b) = false := by
  refine ⟨not_both_names _, ?_, ?_, ?_, ?_⟩
  · show ((bufName b) == bufName b) = true
    simp
  · show ((bufName b) == bufName b) = true
    simp
  · show ((bufName b) == bufName (otherBuf b)) = false
    cases b <;> decide
  · show ((bufName b) == bufName (otherBuf b)) = false
    cases b <;> decide

theorem runValidation_committed (st : SessionState) :
    (runValidation st).committed = st.committed := rfl

theorem applyInsert_committed (st : SessionState) (caret : Nat) (label : Str) :
    (applyInsert st caret label).committed = st.committed := by
  by_cases h1 : st.auto = "history".data
  · simp [applyInsert, h1]
  · by_cases h2 : st.auto = "response".data
    · simp [applyInsert, h1, h2]
    · simp [applyInsert, h1, h2]

/-- Counterexample to C5 as stated: with no accept action at all, a single
successful import event already changes the committed value from none to
the imported triple — importSchema invokes close with save set. -/
theorem c5_counterexample :
    emptySession.committed = none
    ∧ (step emptySession (.importFile (.ok (Json.jobj
        [("response".data, Json.jstr "r".data), ("history".data, Json.jstr "h".data),
         ("schema".data, Json.jarr [])])))).committed
      = some { schema := [], response := "r".data, history := "h".data }
    ∧ (step emptySession (.importFile (.ok (Json.jobj
        [("response".data, Json.jstr "r".data), ("history".data, Json.jstr "h".data),
         ("schema".data, Json.jarr [])])))).committed ≠ emptySession.committed :=
  ⟨rfl, rfl, by decide⟩

/-- C5 amended: the committed triple changes only through close with save,
which is invoked either by the explicit accept action or by a successful
import; every other event leaves it unchanged.  A successful import
replaces the candidate fields and both templates with the imported ones
and immediately commits exactly that imported triple. -/
theorem c5_commit_only_close (st : SessionState) (e : Event) :
    ((step st e).committed = st.committed ∨ e = .closeAccept
      ∨ ∃ parsed, e = .importFile parsed)
    ∧ (∀ parsed rs, parseAndCheck parsed = .ok rs →
        (step st (.importFile parsed)).committed
          = some { schema := rs.schema, response := rs.response, history := rs.history }
        ∧ (step st (.importFile parsed)).candidate = rs.schema
        ∧ (step st (.importFile parsed)).response = rs.response
        ∧ (step st (.importFile parsed)).hist = rs.history) := by
  constructor
  · cases e with
    | inputResponse s => exact Or.inl rfl
    | inputHistory s => exact Or.inl rfl
    | candidateUpdate fields => exact Or.inl rfl
    | fieldNameChange a b => exact Or.inl rfl
    | keyBrace b => exact Or.inl rfl
    | keyHotkey b => exact Or.inl rfl
    | autoDismiss => exact Or.inl rfl
    | autoSelect label caret =>
      refine Or.inl ?_
      show (runValidation (applyInsert st caret label)).committed = st.committed
      rw [runValidation_committed, applyInsert_committed]
    | openModal => exact Or.inl rfl
    | closeCancel => exact Or.inl rfl
    | closeAccept => exact Or.inr (Or.inl rfl)
    | openImport => exact Or.inl rfl
    | importClose => exact Or.inl rfl
    | importFile parsed => exact Or.inr (Or.inr ⟨parsed, rfl⟩)
    | inheritChange rs => exact Or.inl rfl
  · intro parsed rs h
    simp only [step, h]
    exact ⟨rfl, rfl, rfl, rfl⟩

/-- A well-shaped import document, used by the witness below. -/
def c5ImportJson : Json :=
  Json.jobj
    [("response".data, Json.jstr "r".data), ("history".data, Json.jstr "h".data),
     ("schema".data, Json.jarr [Json.jobj
       [("name".data, Json.jstr "hp".data), ("type".data, Json.jstr "string".data)]])]

/-- The schema that document parses to, used by the witness below. -/
def c5ImportRS : RespSchema :=
  { schema := [{ name := "hp".data, type := "string".data }],
    response := "r".data, history := "h".data }

/-- Witness for c5_commit_only_close: a concrete well-shaped import into a
fresh session commits the imported triple at once. -/
theorem c5_commit_only_close_witness :
    (parseAndCheck (.ok c5ImportJson) = Except.ok c5ImportRS)
    ∧ (step emptySession (.importFile (.ok c5ImportJson))).committed
      = some { schema := c5ImportRS.schema, response := c5ImportRS.response,
               history := c5ImportRS.history } :=
  ⟨rfl, ((c5_commit_only_close emptySession (.importFile (.ok c5ImportJson))).2
      (.ok c5ImportJson) c5ImportRS rfl).1⟩

/-- C7: a failed import — the bytes fail to parse as JSON or fail the
shape check — aborts the import: the candidate fields, both templates,
the schema signal and the committed value are exactly as before, and the
toast error carries the underlying parse or shape message. -/
theorem c7_import_failure (st : SessionState) (parsed : Except Str Json) (msg : Str)
    (h : parseAndCheck parsed = .error msg) :
    (step st (.importFile parsed)).candidate = st.candidate
    ∧ (step st (.importFile parsed)).response = st.response
    ∧ (step st (.importFile parsed)).hist = st.hist
    ∧ (step st (.importFile parsed)).schema = st.schema
    ∧ (step st (.importFile parsed)).committed = st.committed
    ∧ (step st (.importFile parsed)).toast = some ("Invalid JSON Schema: ".data ++ msg) := by
  simp [step, h]

/-- Witness for c7_import_failure: importing the JSON number three fails
the shape check and leaves a fresh session untouched apart from the
toast. -/
theorem c7_import_failure_witness :
    (parseAndCheck (.ok (Json.jnum 3)) = Except.error "expected object".data)
    ∧ (step emptySession (.importFile (.ok (Json.jnum 3)))).candidate
        = emptySession.candidate
    ∧ (step emptySession (.importFile (.ok (Json.jnum 3)))).toast
        = some ("Invalid JSON Schema: ".data ++ "expected object".data) :=
  ⟨rfl, (c7_import_failure emptySession (.ok (Json.jnum 3)) "expected object".data rfl).1,
    (c7_import_failure emptySession (.ok (Json.jnum 3)) "expected object".data
      rfl).2.2.2.2.2⟩

end CharacterSchema
